import Mathlib

/-!
Verification of the PDF table-extraction pipeline (`extract_pdf_tables.py`).

The development shallowly embeds the pure logic of the pipeline:

* `calculateTableConfidence` embeds `PDFExtractor._calculate_table_confidence`
  (machine floats are modelled by exact rationals; `round(x, 2)` is modelled by
  `pyRound2`, round-half-to-even at two decimals, as CPython's `round` does);
* `crossValidateTables` / `pageWinner` embed `PDFExtractor._cross_validate_tables`
  (a Python `dict` used for grouping is insertion-ordered, which `groupByKey`
  reproduces; `max(..., key=...)` keeps the first maximal element, which
  `pyMax` reproduces; the formatted audit string
  "Page p: 선택된 소스 = s (신뢰도: c%)" is modelled structurally by `ReportLine`);
* `extractWithPdfplumber` / `extractTablesWithCamelot` embed the extraction
  loops of `_extract_with_pdfplumber` and `_extract_tables_with_camelot`, taking
  the external backends' raw outputs as inputs (a throwing backend is an
  `Except.error`);
* `addTextBlock` embeds the classification logic of `_add_text_block`
  (the regexes of the source are unfolded into character-list matchers; Python's
  string case predicates are modelled on ASCII, which covers every cased
  character the source's patterns and the claims exercise);
* `saveJson` embeds the data assembled by `_save_json`;
* `renderTableBlockMd` / `renderTableBlockHtml` embed the table-marker
  resolution of `_save_markdown` and `_save_html` (emitted markup is modelled
  structurally by `MdPiece` / `HtmlPiece`).
-/

section Grouping

variable {α : Type} {κ : Type} [DecidableEq κ]

/-- One step of insertion-ordered grouping: append `x` to the group keyed `k`,
creating the group at the end when the key is new.  This is what
`d.setdefault(k, []).append(x)` (the `if k not in d: d[k] = []` / append idiom
of the source) does to an insertion-ordered Python dict. -/
def dictAppend (k : κ) (x : α) : List (κ × List α) → List (κ × List α)
  | [] => [(k, [x])]
  | (j, g) :: rest => if j = k then (j, g ++ [x]) :: rest else (j, g) :: dictAppend k x rest

/-- Grouping a list by a key, exactly as the source's loops build a Python dict
of lists: keys in order of first occurrence, each group in extraction order. -/
def groupByKey (key : α → κ) (l : List α) : List (κ × List α) :=
  l.foldl (fun d x => dictAppend (key x) x d) []

/-- The distinct keys of a list, in order of first occurrence. -/
def firstKeys (key : α → κ) : List α → List κ
  | [] => []
  | x :: xs => key x :: (firstKeys key xs).filter (fun k => decide (k ≠ key x))

end Grouping

/-- `TableData` of the source: one candidate table from one backend.
Cells are strings (`None` cells behave as empty strings under the source's
`cell and str(cell).strip()` test); `confidence` is an exact rational. -/
structure TableData where
  data : List (List String)
  page_num : Nat
  source : String
  confidence : ℚ
deriving DecidableEq

/-- One audit line of `comparison_report`, modelled structurally: the source
appends the formatted string
"Page page_num: 선택된 소스 = source (신뢰도: confidence%)". -/
structure ReportLine where
  page_num : Nat
  source : String
  confidence : ℚ
deriving DecidableEq

/-- A raw result of `camelot.read_pdf`: its dataframe rows, its page and its
native accuracy score. -/
structure CamelotTable where
  df : List (List String)
  page : Nat
  accuracy : ℚ
deriving DecidableEq

/-- Python `\s` / `str.strip` whitespace, ASCII part. -/
def isPySpace (c : Char) : Bool :=
  c == ' ' || c == '\t' || c == '\n' || c == '\r' || c == '\x0b' || c == '\x0c'

/-- Python `str.strip()`. -/
def pyStrip (cs : List Char) : List Char :=
  ((cs.dropWhile isPySpace).reverse.dropWhile isPySpace).reverse

/-- The source's non-empty-cell test `cell and str(cell).strip()`. -/
def cellNonEmpty (cell : String) : Bool :=
  !cell.data.isEmpty && !(pyStrip cell.data).isEmpty

/-- `max(set(col_counts), key=col_counts.count)` of the source.  CPython's set
iteration order is an implementation artifact; it is determinized here to
first-occurrence order, with `max`'s keep-the-first tie-break.  No claim
settled below depends on the tie-break. -/
def mostCommonCols (cc : List Nat) : Nat :=
  match firstKeys id cc with
  | [] => 0
  | k :: ks => ks.foldl (fun best v => if cc.count best < cc.count v then v else best) k

/-- CPython `round` to an integer: round half to even. -/
def roundHalfEven (q : ℚ) : ℤ :=
  let n : ℤ := ⌊q⌋
  let frac : ℚ := q - (n : ℚ)
  if frac < 1 / 2 then n
  else if 1 / 2 < frac then n + 1
  else if n % 2 = 0 then n else n + 1

/-- CPython `round(q, 2)`. -/
def pyRound2 (q : ℚ) : ℚ :=
  ((roundHalfEven (q * 100) : ℤ) : ℚ) / 100

/-- `PDFExtractor._calculate_table_confidence`, line for line:
fill rate of the cells, column-count consistency, weighted score rounded to
two decimals. -/
def calculateTableConfidence (table : List (List String)) : ℚ :=
  if table.isEmpty then 0
  else
    let total_cells : Nat := (table.map List.length).sum
    let non_empty_cells : Nat := (table.map (fun row => row.countP cellNonEmpty)).sum
    if total_cells = 0 then 0
    else
      let fill_rate : ℚ := (non_empty_cells : ℚ) / (total_cells : ℚ)
      let col_counts : List Nat := table.map List.length
      let consistency_rate : ℚ :=
        if col_counts.isEmpty then 0
        else (col_counts.count (mostCommonCols col_counts) : ℚ) / (col_counts.length : ℚ)
      pyRound2 ((fill_rate * 0.6 + consistency_rate * 0.4) * 100)

/-- `max` over a non-empty tail with an accumulator: CPython's `max(..., key=...)`
replaces the current best only on a strictly greater key, so the first maximal
element wins. -/
def pyMaxAux (b : TableData) (ts : List TableData) : TableData :=
  ts.foldl (fun best x => if best.confidence < x.confidence then x else best) b

/-- `max(tables, key=lambda t: t.confidence)` of the source (`none` on `[]`). -/
def pyMax : List TableData → Option TableData
  | [] => none
  | t :: ts => some (pyMaxAux t ts)

/-- Specification-side maximum: the first element whose confidence is greatest
("maximum-confidence candidate, ties broken by first-encountered"). -/
def specFirstMax (l : List TableData) : Option TableData :=
  l.find? (fun t => l.all (fun u => decide (u.confidence ≤ t.confidence)))

/-- The per-page body of `_cross_validate_tables`: one candidate wins
unconditionally; otherwise group by source, take each source's best by
`max`, then the best of the bests. -/
def pageWinner (pts : List TableData) : Option TableData :=
  if pts.length = 1 then pts.head?
  else pyMax ((groupByKey TableData.source pts).filterMap (fun sg => pyMax sg.2))

/-- The audit line `_cross_validate_tables` appends for one page's winner. -/
def reportEntry (page : Nat) (w : TableData) : ReportLine :=
  { page_num := page, source := w.source, confidence := w.confidence }

/-- `PDFExtractor._cross_validate_tables`: group all candidates by page
(insertion-ordered), pick each page's winner, and append one audit line for
every page that had more than one candidate and produced a winner. -/
def crossValidateTables (tables : List TableData) : List TableData × List ReportLine :=
  ((groupByKey TableData.page_num tables).filterMap (fun pg => pageWinner pg.2),
   (groupByKey TableData.page_num tables).filterMap (fun pg =>
     if pg.2.length = 1 then none
     else (pageWinner pg.2).map (reportEntry pg.1)))

/-- Modelled from the spec's words for claim C1 only: the best candidate of one
source group ("within each source group select the max-confidence candidate,
ties broken by first-encountered"). -/
def sourceGroupBest (pts : List TableData) (s : String) : Option TableData :=
  specFirstMax (pts.filter (fun t => decide (t.source = s)))

/-- Modelled from the spec's words for claim C1 only: the two-stage reduction -
per-source winners first (sources in first-encountered order), then the
max-confidence winner among those, ties broken by first-encountered. -/
def twoStageWinner (pts : List TableData) : Option TableData :=
  specFirstMax ((firstKeys TableData.source pts).filterMap (sourceGroupBest pts))

/-- The per-page loop of `_extract_with_pdfplumber`, starting at a given page
number: every raw table of the external backend that is non-empty and has more
than one row becomes a candidate scored by `calculateTableConfidence`. -/
def extractWithPdfplumberFrom (page_num : Nat) :
    List (List (List (List String))) → List TableData
  | [] => []
  | pageTables :: rest =>
      (pageTables.filter (fun t => !t.isEmpty && decide (1 < t.length))).map (fun t =>
        { data := t, page_num := page_num, source := "pdfplumber",
          confidence := calculateTableConfidence t })
      ++ extractWithPdfplumberFrom (page_num + 1) rest

/-- `_extract_with_pdfplumber` over the document's pages (`enumerate(pages, 1)`). -/
def extractWithPdfplumber (pages : List (List (List (List String)))) : List TableData :=
  extractWithPdfplumberFrom 1 pages

/-- One camelot pass: keep the tables with more than one dataframe row,
tagging each with the given source label and its native accuracy. -/
def camelotCandidates (src : String) (ts : List CamelotTable) : List TableData :=
  (ts.filter (fun t => decide (1 < t.df.length))).map (fun t =>
    { data := t.df, page_num := t.page, source := src, confidence := t.accuracy })

/-- `PDFExtractor._extract_tables_with_camelot`.  The outer `try` wraps both
passes: a stream-mode failure aborts the whole stage and records one
"Camelot 오류: ..." report line; the lattice pass sits in an inner bare
`try/except: pass`, so its failure is swallowed with no report line. -/
def extractTablesWithCamelot (stream lattice : Except String (List CamelotTable)) :
    List TableData × List String :=
  match stream with
  | .error e => ([], ["Camelot 오류: " ++ e])
  | .ok sts =>
    match lattice with
    | .error _ => (camelotCandidates "camelot_stream" sts, [])
    | .ok lts =>
        (camelotCandidates "camelot_stream" sts ++ camelotCandidates "camelot_lattice" lts, [])

/-- The full candidate set `self.tables` as the cross-validator receives it:
pdfplumber candidates first, then the camelot candidates. -/
def pipelineCandidates (pages : List (List (List (List String))))
    (stream lattice : Except String (List CamelotTable)) : List TableData :=
  extractWithPdfplumber pages ++ (extractTablesWithCamelot stream lattice).1

/-- Head of a character list is Python whitespace (`\s` of a regex `\s+` whose
remainder is unconstrained needs exactly one such character). -/
def headIsPySpace : List Char → Bool
  | [] => false
  | c :: _ => isPySpace c

/-- `text[0].isupper()` on the ASCII model. -/
def headIsUpper : List Char → Bool
  | [] => false
  | c :: _ => c.isUpper

/-- A cased character of the ASCII model. -/
def isCased (c : Char) : Bool := c.isUpper || c.isLower

/-- Python `str.isupper()`: at least one cased character and no lowercase one. -/
def pyIsUpper (cs : List Char) : Bool :=
  cs.any isCased && cs.all (fun c => !c.isLower)

/-- Tail of the regex `^\d+[.)]\s+` once at least one digit was read. -/
def matchNumberedAux : List Char → Bool
  | [] => false
  | c :: rest =>
      if c.isDigit then matchNumberedAux rest
      else (c == '.' || c == ')') && headIsPySpace (c :: rest).tail

/-- The source's regex `^\d+[.)]\s+` (anchored prefix match, as `re.match`). -/
def matchNumbered : List Char → Bool
  | [] => false
  | c :: rest => c.isDigit && matchNumberedAux rest

/-- `[.)]\s+` after a one-character list glyph. -/
def sepThenSpace : List Char → Bool
  | [] => false
  | c :: rest => (c == '.' || c == ')') && headIsPySpace rest

/-- The five ordered list patterns of `_add_text_block`, first match wins:
bullet glyphs, dash/asterisk/plus, numbered, Korean-syllable enumerator,
lowercase-letter enumerator.  Returns the pattern's depth. -/
def matchListPattern (text : List Char) : Option Nat :=
  match text with
  | [] => none
  | c :: rest =>
      if (c == '○' || c == '●' || c == '▪' || c == '▫' || c == '•' || c == '·')
          && headIsPySpace rest then some 1
      else if (c == '-' || c == '*' || c == '+') && headIsPySpace rest then some 1
      else if matchNumbered (c :: rest) then some 1
      else if (decide ('가' ≤ c) && decide (c ≤ '하')) && sepThenSpace rest then some 2
      else if (decide ('a' ≤ c) && decide (c ≤ 'z')) && sepThenSpace rest then some 2
      else none

/-- `needle` is a prefix of `hay`. -/
def startsWithChars : List Char → List Char → Bool
  | [], _ => true
  | _ :: _, [] => false
  | n :: ns, h :: hs => n == h && startsWithChars ns hs

/-- `needle in hay` on character lists (Python substring containment). -/
def containsSub (needle : List Char) : List Char → Bool
  | [] => needle.isEmpty
  | h :: hs => startsWithChars needle (h :: hs) || containsSub needle hs

/-- The keyword set of the heading heuristic: '장', '절', '부', '팀', '담당'. -/
def headingKeywords : List (List Char) :=
  [['장'], ['절'], ['부'], ['팀'], ['담', '당']]

/-- The classification logic of `PDFExtractor._add_text_block`: returns the
`(block_type, level)` of the block appended for a non-empty text, `none` for
empty text.  Heading tests run first (numbered pattern, upper case, keyword),
then the list patterns; leading whitespace of more than four columns adds one
to the list depth; otherwise the block is a paragraph of level 0. -/
def addTextBlock (text : List Char) : Option (String × Nat) :=
  if text.isEmpty then none
  else
    let heading : Bool × Nat :=
      if text.length < 100 then
        if matchNumbered text then (true, 2)
        else if pyIsUpper text || (headIsUpper text && text.length < 50) then (true, 1)
        else if headingKeywords.any (fun k => containsSub k (text.map Char.toLower)) then
          (true, 2)
        else (false, 0)
      else (false, 0)
    let listMatch : Option Nat := matchListPattern text
    let leading : Nat := (text.takeWhile isPySpace).length
    let list_depth : Nat := listMatch.getD 0 + (if 4 < leading then 1 else 0)
    if heading.1 then some ("heading", heading.2)
    else if listMatch.isSome then some ("list_item", list_depth)
    else some ("paragraph", 0)

/-- `TextBlock` of the source (bbox and metadata, never consulted by the
embedded logic, are omitted). -/
structure TextBlock where
  text : String
  block_type : String
  level : Nat
  page_num : Nat
deriving DecidableEq

/-- One step of the page dict of `_save_json`: create the page entry for every
block's page, then append the block to its page's `blocks` array only when it
is not a table marker. -/
def jsonPagesStep (d : List (Nat × List TextBlock)) (b : TextBlock) :
    List (Nat × List TextBlock) :=
  let d1 := if d.any (fun pg => pg.1 == b.page_num) then d else d ++ [(b.page_num, [])]
  if b.block_type == "table" then d1 else dictAppend b.page_num b d1

/-- The page dict of `_save_json` over all text blocks. -/
def jsonPages (blocks : List TextBlock) : List (Nat × List TextBlock) :=
  blocks.foldl jsonPagesStep []

/-- One `content` entry of the JSON export. -/
structure JsonPage where
  page_number : Nat
  blocks : List TextBlock
  tables : List TableData
deriving DecidableEq

/-- The top-level JSON export record of `_save_json` (the pdf path string is
omitted).  `total_pages` is `max(page numbers)` (0 when there are no blocks);
`total_blocks` counts every text block, table markers included; each page's
tables are the validated tables whose page number matches. -/
structure JsonData where
  total_pages : Nat
  total_blocks : Nat
  total_tables : Nat
  content : List JsonPage
deriving DecidableEq

/-- `PDFExtractor._save_json` on the accumulated blocks and validated tables. -/
def saveJson (blocks : List TextBlock) (tables : List TableData) : JsonData :=
  { total_pages := (blocks.map TextBlock.page_num).foldl max 0
    total_blocks := blocks.length
    total_tables := tables.length
    content := (jsonPages blocks).map (fun pg =>
      { page_number := pg.1
        blocks := pg.2
        tables := tables.filter (fun t => t.page_num == pg.1) }) }

/-- Decimal digits to a number. -/
def digitsToNat (ds : List Char) : Nat :=
  ds.foldl (fun n c => n * 10 + (c.toNat - 48)) 0

/-- The marker regex `\[TABLE_(\d+)_(\d+)\]` of `_save_markdown` / `_save_html`
(`re.match`: anchored prefix, trailing characters permitted). -/
def parseTableMarker (cs : List Char) : Option (Nat × Nat) :=
  match cs with
  | '[' :: 'T' :: 'A' :: 'B' :: 'L' :: 'E' :: '_' :: rest =>
      let d1 := rest.takeWhile Char.isDigit
      let rest1 := rest.dropWhile Char.isDigit
      if d1.isEmpty then none
      else
        match rest1 with
        | '_' :: rest2 =>
            let d2 := rest2.takeWhile Char.isDigit
            let rest3 := rest2.dropWhile Char.isDigit
            if d2.isEmpty then none
            else
              match rest3 with
              | ']' :: _ => some (digitsToNat d1, digitsToNat d2)
              | _ => none
        | _ => none
  | _ => none

/-- The markdown emitted for one table marker, modelled structurally: the
"### 📊 Table {idx}" line, the tabulated grid, the source/confidence line. -/
inductive MdPiece where
  | tableHeader (table_idx : Nat)
  | tableGrid (data : List (List String))
  | sourceInfo (source : String) (confidence : ℚ)
deriving DecidableEq

/-- The HTML emitted for one table marker, modelled structurally. -/
inductive HtmlPiece where
  | tableHeading (table_idx : Nat)
  | tableHead (headerRow : List String)
  | tableBody (bodyRows : List (List String))
  | tableInfo (source : String) (confidence : ℚ)
deriving DecidableEq

/-- The table branch of `_save_markdown`: parse the marker, scan the validated
tables for the first one on that page (`break` after the first match), and
emit the header for the marker's ordinal plus, when the table has data, its
grid and the source line. -/
def renderTableBlockMd (tables : List TableData) (text : List Char) : List MdPiece :=
  match parseTableMarker text with
  | none => []
  | some (p, i) =>
      match tables.find? (fun t => t.page_num == p) with
      | none => []
      | some t =>
          MdPiece.tableHeader i ::
            (if t.data.isEmpty then []
             else [MdPiece.tableGrid t.data, MdPiece.sourceInfo t.source t.confidence])

/-- The table branch of `_save_html`: same first-match-by-page scan; the grid
is split into a head row (`data[0]`) and, when more rows exist, a body. -/
def renderTableBlockHtml (tables : List TableData) (text : List Char) : List HtmlPiece :=
  match parseTableMarker text with
  | none => []
  | some (p, i) =>
      match tables.find? (fun t => t.page_num == p) with
      | none => []
      | some t =>
          HtmlPiece.tableHeading i ::
            (if t.data.isEmpty then []
             else
               (match t.data with
                | [] => []
                | h :: body =>
                    HtmlPiece.tableHead h ::
                      (if body.isEmpty then [] else [HtmlPiece.tableBody body]))
               ++ [HtmlPiece.tableInfo t.source t.confidence])

section GroupingLemmas

variable {α : Type} {κ : Type} [DecidableEq κ]

theorem firstKeys_append_singleton (key : α → κ) (l : List α) (x : α) :
    firstKeys key (l ++ [x]) =
      if key x ∈ firstKeys key l then firstKeys key l else firstKeys key l ++ [key x] := by
  induction l with
  | nil => simp [firstKeys]
  | cons a l ih =>
      have hL : firstKeys key ((a :: l) ++ [x]) =
          key a :: (firstKeys key (l ++ [x])).filter (fun j => decide (j ≠ key a)) := rfl
      have hCons : firstKeys key (a :: l) =
          key a :: (firstKeys key l).filter (fun j => decide (j ≠ key a)) := rfl
      rw [hL, ih, hCons]
      by_cases hx : key x ∈ firstKeys key l
      · rw [if_pos hx]
        have hmem : key x ∈ key a :: (firstKeys key l).filter (fun j => decide (j ≠ key a)) := by
          by_cases hxa : key x = key a
          · simp [hxa]
          · exact List.mem_cons_of_mem _ (List.mem_filter.mpr ⟨hx, by simp [hxa]⟩)
        rw [if_pos hmem]
      · rw [if_neg hx, List.filter_append]
        by_cases hxa : key x = key a
        · have hmem : key x ∈ key a :: (firstKeys key l).filter (fun j => decide (j ≠ key a)) := by
            simp [hxa]
          rw [if_pos hmem]
          simp [hxa]
        · have hnot : key x ∉ key a :: (firstKeys key l).filter (fun j => decide (j ≠ key a)) := by
            intro hmem
            rcases List.mem_cons.mp hmem with h | h
            · exact hxa h
            · exact hx (List.mem_filter.mp h).1
          rw [if_neg hnot]
          simp [List.filter_cons, hxa]

theorem mem_firstKeys (key : α → κ) (l : List α) (k : κ) :
    k ∈ firstKeys key l ↔ ∃ a ∈ l, key a = k := by
  induction l with
  | nil => simp [firstKeys]
  | cons a l ih =>
      have hCons : firstKeys key (a :: l) =
          key a :: (firstKeys key l).filter (fun j => decide (j ≠ key a)) := rfl
      rw [hCons]
      constructor
      · intro h
        rcases List.mem_cons.mp h with h1 | h1
        · exact ⟨a, List.mem_cons_self a l, h1.symm⟩
        · obtain ⟨b, hb, hbk⟩ := ih.mp (List.mem_filter.mp h1).1
          exact ⟨b, List.mem_cons_of_mem a hb, hbk⟩
      · rintro ⟨b, hb, rfl⟩
        rcases List.mem_cons.mp hb with rfl | hb'
        · exact List.mem_cons_self _ _
        · by_cases hk : key b = key a
          · rw [hk]
            exact List.mem_cons_self _ _
          · exact List.mem_cons_of_mem _
              (List.mem_filter.mpr ⟨ih.mpr ⟨b, hb', rfl⟩, by simp [hk]⟩)

theorem nodup_firstKeys (key : α → κ) (l : List α) : (firstKeys key l).Nodup := by
  induction l with
  | nil => simp [firstKeys]
  | cons a l ih =>
      simp only [firstKeys]
      refine List.nodup_cons.mpr ⟨?_, List.Nodup.filter _ ih⟩
      intro hmem
      have h := (List.mem_filter.mp hmem).2
      simp at h

theorem dictAppend_map (k : κ) (x : α) (g : κ → List α) :
    ∀ ks : List κ, ks.Nodup →
      dictAppend k x (ks.map (fun j => (j, g j))) =
        if k ∈ ks then ks.map (fun j => (j, g j ++ if j = k then [x] else []))
        else ks.map (fun j => (j, g j)) ++ [(k, [x])]
  | [], _ => by simp [dictAppend]
  | j0 :: ks, h => by
      simp only [List.map_cons, dictAppend]
      by_cases hj : j0 = k
      · subst hj
        rw [if_pos rfl, if_pos (List.mem_cons_self _ _)]
        have hnot : j0 ∉ ks := (List.nodup_cons.mp h).1
        have htail : ks.map (fun j => (j, g j ++ if j = j0 then [x] else []))
            = ks.map (fun j => (j, g j)) := by
          apply List.map_congr_left
          intro j hjks
          have hne : j ≠ j0 := fun e => hnot (e ▸ hjks)
          simp [hne]
        rw [htail]
        simp
      · rw [if_neg hj, dictAppend_map k x g ks (List.nodup_cons.mp h).2]
        by_cases hk : k ∈ ks
        · rw [if_pos hk, if_pos (List.mem_cons_of_mem _ hk)]
          simp [hj]
        · have hnk : k ∉ j0 :: ks := by
            intro hc
            rcases List.mem_cons.mp hc with e | e
            · exact hj e.symm
            · exact hk e
          rw [if_neg hk, if_neg hnk]
          simp

theorem groupByKey_eq_firstKeys (key : α → κ) (l : List α) :
    groupByKey key l =
      (firstKeys key l).map (fun k => (k, l.filter (fun a => decide (key a = k)))) := by
  induction l using List.reverseRecOn with
  | nil => rfl
  | append_singleton l x ih =>
      have hg : groupByKey key (l ++ [x]) = dictAppend (key x) x (groupByKey key l) := by
        simp [groupByKey, List.foldl_append]
      rw [hg, ih, dictAppend_map (key x) x _ _ (nodup_firstKeys key l),
        firstKeys_append_singleton]
      by_cases hx : key x ∈ firstKeys key l
      · rw [if_pos hx, if_pos hx]
        apply List.map_congr_left
        intro k hk
        have hfil : (l ++ [x]).filter (fun a => decide (key a = k)) =
            l.filter (fun a => decide (key a = k)) ++ if k = key x then [x] else [] := by
          rw [List.filter_append]
          congr 1
          by_cases e : k = key x
          · rw [if_pos e]
            simp [List.filter_cons, e.symm]
          · rw [if_neg e]
            have e2 : key x ≠ k := fun h2 => e h2.symm
            simp [List.filter_cons, e2]
        rw [hfil]
      · rw [if_neg hx, if_neg hx, List.map_append]
        congr 1
        · apply List.map_congr_left
          intro k hk
          have hne : key x ≠ k := by
            intro e
            exact hx (e ▸ hk)
          have hfil : (l ++ [x]).filter (fun a => decide (key a = k)) =
              l.filter (fun a => decide (key a = k)) := by
            rw [List.filter_append]
            simp [List.filter_cons, hne]
          rw [hfil]
        · have hfil : (l ++ [x]).filter (fun a => decide (key a = key x)) = [x] := by
            rw [List.filter_append]
            have h1 : l.filter (fun a => decide (key a = key x)) = [] := by
              rw [List.filter_eq_nil_iff]
              intro a ha
              simp only [decide_eq_true_eq]
              intro e
              exact hx ((mem_firstKeys key l (key x)).mpr ⟨a, ha, e⟩)
            simp [h1, List.filter_cons]
          simp only [List.map_cons, List.map_nil]
          rw [hfil]

end GroupingLemmas

theorem pyMaxAux_mem (b : TableData) (ts : List TableData) : pyMaxAux b ts ∈ b :: ts := by
  induction ts generalizing b with
  | nil => simp [pyMaxAux]
  | cons x ts ih =>
      have heq : pyMaxAux b (x :: ts) =
          pyMaxAux (if b.confidence < x.confidence then x else b) ts := rfl
      rw [heq]
      rcases List.mem_cons.mp (ih (if b.confidence < x.confidence then x else b)) with h | h
      · rw [h]
        by_cases hc : b.confidence < x.confidence
        · simp [hc]
        · simp [hc]
      · exact List.mem_cons_of_mem _ (List.mem_cons_of_mem _ h)

theorem pyMaxAux_le (b : TableData) (ts : List TableData) :
    ∀ u ∈ b :: ts, u.confidence ≤ (pyMaxAux b ts).confidence := by
  induction ts generalizing b with
  | nil =>
      intro u hu
      rcases List.mem_cons.mp hu with rfl | h
      · exact le_refl _
      · simp at h
  | cons x ts ih =>
      intro u hu
      have heq : pyMaxAux b (x :: ts) =
          pyMaxAux (if b.confidence < x.confidence then x else b) ts := rfl
      rw [heq]
      have hble : b.confidence ≤ (if b.confidence < x.confidence then x else b).confidence := by
        by_cases hc : b.confidence < x.confidence
        · rw [if_pos hc]; exact le_of_lt hc
        · rw [if_neg hc]
      have hxle : x.confidence ≤ (if b.confidence < x.confidence then x else b).confidence := by
        by_cases hc : b.confidence < x.confidence
        · rw [if_pos hc]
        · rw [if_neg hc]; exact le_of_not_lt hc
      have hbest := ih (if b.confidence < x.confidence then x else b)
        (if b.confidence < x.confidence then x else b) (List.mem_cons_self _ _)
      rcases List.mem_cons.mp hu with rfl | hu'
      · exact le_trans hble hbest
      · rcases List.mem_cons.mp hu' with rfl | hu''
        · exact le_trans hxle hbest
        · exact ih _ u (List.mem_cons_of_mem _ hu'')

theorem pyMaxAux_stay (b : TableData) (ts : List TableData)
    (h : ∀ u ∈ ts, u.confidence ≤ b.confidence) : pyMaxAux b ts = b := by
  induction ts generalizing b with
  | nil => rfl
  | cons x ts ih =>
      have hx : ¬ b.confidence < x.confidence := not_lt.mpr (h x (List.mem_cons_self _ _))
      have heq : pyMaxAux b (x :: ts) =
          pyMaxAux (if b.confidence < x.confidence then x else b) ts := rfl
      rw [heq, if_neg hx]
      exact ih b (fun u hu => h u (List.mem_cons_of_mem _ hu))

theorem pyMax_cons_of_exists (ts : List TableData) :
    ∀ b : TableData, (∃ u ∈ ts, b.confidence < u.confidence) →
      pyMax ts = some (pyMaxAux b ts) := by
  induction ts with
  | nil =>
      rintro b ⟨u, hu, -⟩
      simp at hu
  | cons x ts ih =>
      rintro b ⟨u, hu, hlt⟩
      by_cases hbx : b.confidence < x.confidence
      · have heq : pyMaxAux b (x :: ts) = pyMaxAux x ts := by
          show pyMaxAux (if b.confidence < x.confidence then x else b) ts = pyMaxAux x ts
          rw [if_pos hbx]
        rw [heq]
        rfl
      · have hu' : u ∈ ts := by
          rcases List.mem_cons.mp hu with rfl | h
          · exact absurd hlt hbx
          · exact h
        have h1 := ih b ⟨u, hu', hlt⟩
        have h2 := ih x ⟨u, hu', lt_of_le_of_lt (le_of_not_lt hbx) hlt⟩
        have e1 : pyMaxAux b (x :: ts) = pyMaxAux b ts := by
          show pyMaxAux (if b.confidence < x.confidence then x else b) ts = pyMaxAux b ts
          rw [if_neg hbx]
        have e2 : pyMax (x :: ts) = some (pyMaxAux x ts) := rfl
        rw [e2, e1, ← h1, h2]

theorem find?_congr_mem {α : Type} {p q : α → Bool} :
    ∀ l : List α, (∀ a ∈ l, p a = q a) → l.find? p = l.find? q
  | [], _ => rfl
  | a :: l, h => by
      have hpa := h a (List.mem_cons_self _ _)
      by_cases hp : p a = true
      · rw [List.find?_cons_of_pos _ hp, List.find?_cons_of_pos _ (hpa ▸ hp)]
      · rw [List.find?_cons_of_neg _ hp, List.find?_cons_of_neg _ (hpa ▸ hp)]
        exact find?_congr_mem l (fun b hb => h b (List.mem_cons_of_mem _ hb))

theorem pyMax_eq_specFirstMax (l : List TableData) : pyMax l = specFirstMax l := by
  induction l with
  | nil => rfl
  | cons t ts ih =>
      by_cases hall : ∀ u ∈ ts, u.confidence ≤ t.confidence
      · have h1 : pyMax (t :: ts) = some t := by
          show some (pyMaxAux t ts) = some t
          rw [pyMaxAux_stay t ts hall]
        have hp : (fun v => (t :: ts).all fun u => decide (u.confidence ≤ v.confidence)) t
            = true := by
          simp only [List.all_eq_true, decide_eq_true_eq]
          intro u hu
          rcases List.mem_cons.mp hu with rfl | h
          · exact le_refl _
          · exact hall u h
        rw [h1]
        unfold specFirstMax
        rw [@List.find?_cons_of_pos TableData
          (fun v => (t :: ts).all fun u => decide (u.confidence ≤ v.confidence)) t ts hp]
      · push_neg at hall
        obtain ⟨u, hu, hlt⟩ := hall
        have h1 : pyMax (t :: ts) = pyMax ts := by
          rw [show pyMax (t :: ts) = some (pyMaxAux t ts) from rfl,
            ← pyMax_cons_of_exists ts t ⟨u, hu, hlt⟩]
        have hpt : ¬ ((fun v => (t :: ts).all fun w => decide (w.confidence ≤ v.confidence)) t
            = true) := by
          simp only [List.all_eq_true, decide_eq_true_eq]
          intro hcon
          exact absurd (hcon u (List.mem_cons_of_mem _ hu)) (not_le.mpr hlt)
        have h2 : specFirstMax (t :: ts) =
            List.find? (fun v => (t :: ts).all fun w => decide (w.confidence ≤ v.confidence))
              ts := by
          unfold specFirstMax
          rw [@List.find?_cons_of_neg TableData
            (fun v => (t :: ts).all fun w => decide (w.confidence ≤ v.confidence)) t ts hpt]
        have h3 : List.find? (fun v => (t :: ts).all fun w => decide (w.confidence ≤ v.confidence))
              ts
            = List.find? (fun v => ts.all fun w => decide (w.confidence ≤ v.confidence)) ts := by
          apply find?_congr_mem
          intro v hv
          rcases Bool.eq_false_or_eq_true (ts.all fun w => decide (w.confidence ≤ v.confidence))
            with hb | hb
          · have hvall : ∀ w ∈ ts, w.confidence ≤ v.confidence := by
              intro w hw
              have := List.all_eq_true.mp hb w hw
              simpa using this
            have htv : t.confidence ≤ v.confidence :=
              le_of_lt (lt_of_lt_of_le hlt (hvall u hu))
            rw [List.all_cons, hb, Bool.and_true, decide_eq_true htv]
          · rw [List.all_cons, hb, Bool.and_false]
        rw [h1, ih, h2, h3]
        rfl

theorem pyMax_mem {l : List TableData} {w : TableData} (h : pyMax l = some w) : w ∈ l := by
  cases l with
  | nil => simp [pyMax] at h
  | cons t ts =>
      have he : pyMaxAux t ts = w := by
        have := h
        simp only [pyMax, Option.some.injEq] at this
        exact this
      rw [← he]
      exact pyMaxAux_mem t ts

theorem pyMax_isSome {l : List TableData} (h : l ≠ []) : ∃ w, pyMax l = some w := by
  cases l with
  | nil => exact absurd rfl h
  | cons t ts => exact ⟨pyMaxAux t ts, rfl⟩

theorem pageWinner_mem {pts : List TableData} {w : TableData} (h : pageWinner pts = some w) :
    w ∈ pts := by
  unfold pageWinner at h
  by_cases h1 : pts.length = 1
  · rw [if_pos h1] at h
    exact List.mem_of_mem_head? (Option.mem_def.mpr h)
  · rw [if_neg h1] at h
    obtain ⟨sg, hsg, hsome⟩ := List.mem_filterMap.mp (pyMax_mem h)
    have hmem := pyMax_mem hsome
    rw [groupByKey_eq_firstKeys] at hsg
    obtain ⟨k, hk, rfl⟩ := List.mem_map.mp hsg
    exact List.mem_of_mem_filter hmem

theorem pageWinner_isSome {pts : List TableData} (h : pts ≠ []) :
    ∃ w, pageWinner pts = some w := by
  unfold pageWinner
  by_cases h1 : pts.length = 1
  · rw [if_pos h1]
    cases pts with
    | nil => exact absurd rfl h
    | cons t ts => exact ⟨t, rfl⟩
  · rw [if_neg h1]
    apply pyMax_isSome
    cases pts with
    | nil => exact absurd rfl h
    | cons t ts =>
        rw [groupByKey_eq_firstKeys]
        have hfk : firstKeys TableData.source (t :: ts) =
            TableData.source t ::
              (firstKeys TableData.source ts).filter
                (fun k => decide (k ≠ TableData.source t)) := rfl
        rw [hfk]
        simp only [List.map_cons, List.filterMap_cons]
        have htmem : t ∈ (t :: ts).filter
            (fun a => decide (TableData.source a = TableData.source t)) :=
          List.mem_filter.mpr ⟨List.mem_cons_self _ _, by simp⟩
        have hne : (t :: ts).filter
            (fun a => decide (TableData.source a = TableData.source t)) ≠ [] := by
          intro e
          rw [e] at htmem
          simp at htmem
        obtain ⟨w, hw⟩ := pyMax_isSome hne
        rw [hw]
        simp

/-- C1: cross-validation reduces a multi-candidate page in two stages - group
by source, take each source group's max-confidence candidate (ties to the
first encountered), then take the max-confidence candidate among the
per-source winners (ties to the first encountered).  The witness instantiates
the claim's example: candidates (sourceA, 40), (sourceA, 90), (sourceB, 60)
on one page elect (sourceA, 90). -/
theorem cross_validation_two_stage (pts : List TableData) (h : 2 ≤ pts.length) :
    pageWinner pts = twoStageWinner pts := by
  have hne : pts.length ≠ 1 := by omega
  unfold pageWinner twoStageWinner sourceGroupBest
  rw [if_neg hne, groupByKey_eq_firstKeys, List.filterMap_map]
  simp only [pyMax_eq_specFirstMax]
  have hfun : ((fun sg : String × List TableData => specFirstMax sg.2) ∘
        fun k => (k, pts.filter (fun a => decide (a.source = k))))
      = fun s => specFirstMax (pts.filter (fun t => decide (t.source = s))) := by
    funext s
    simp [Function.comp]
  rw [hfun]

theorem cross_validation_two_stage_witness :
    2 ≤ ([⟨[], 1, "sourceA", 40⟩, ⟨[], 1, "sourceA", 90⟩,
          ⟨[], 1, "sourceB", 60⟩] : List TableData).length
    ∧ pageWinner [⟨[], 1, "sourceA", 40⟩, ⟨[], 1, "sourceA", 90⟩, ⟨[], 1, "sourceB", 60⟩]
        = twoStageWinner [⟨[], 1, "sourceA", 40⟩, ⟨[], 1, "sourceA", 90⟩, ⟨[], 1, "sourceB", 60⟩]
    ∧ pageWinner [⟨[], 1, "sourceA", 40⟩, ⟨[], 1, "sourceA", 90⟩, ⟨[], 1, "sourceB", 60⟩]
        = some ⟨[], 1, "sourceA", 90⟩ :=
  ⟨by decide, cross_validation_two_stage _ (by decide), by decide⟩

theorem filterMap_filter_page_eq_nil (F : Nat → Option TableData) :
    ∀ ks : List Nat, (∀ k ∈ ks, ∀ w, F k = some w → w.page_num = k) →
      ∀ p : Nat, p ∉ ks →
        (ks.filterMap F).filter (fun t => decide (t.page_num = p)) = []
  | [], _, p, _ => rfl
  | k0 :: ks, hF, p, hp => by
      rw [List.filterMap_cons]
      have htail := filterMap_filter_page_eq_nil F ks
        (fun k hk => hF k (List.mem_cons_of_mem _ hk)) p
        (fun hmem => hp (List.mem_cons_of_mem _ hmem))
      cases hF0 : F k0 with
      | none => exact htail
      | some w =>
          have hwp : w.page_num = k0 := hF k0 (List.mem_cons_self _ _) w hF0
          rw [List.filter_cons]
          have hne : ¬ (decide (w.page_num = p) = true) := by
            simp only [decide_eq_true_eq]
            intro e
            exact hp ((hwp.symm.trans e) ▸ List.mem_cons_self _ _)
          rw [if_neg hne]
          exact htail

theorem filterMap_filter_page_unique (F : Nat → Option TableData) :
    ∀ ks : List Nat, ks.Nodup → (∀ k ∈ ks, ∀ w, F k = some w → w.page_num = k) →
      ∀ p : Nat, p ∈ ks → ∀ w, F p = some w →
        (ks.filterMap F).filter (fun t => decide (t.page_num = p)) = [w]
  | [], _, _, p, hp, _, _ => by simp at hp
  | k0 :: ks, hnd, hF, p, hp, w, hFp => by
      rw [List.filterMap_cons]
      rcases List.mem_cons.mp hp with rfl | hp'
      · rw [hFp, List.filter_cons]
        have hwp : w.page_num = p := hF p (List.mem_cons_self _ _) w hFp
        rw [if_pos (by simp [hwp])]
        have hrest : (ks.filterMap F).filter (fun t => decide (t.page_num = p)) = [] :=
          filterMap_filter_page_eq_nil F ks
            (fun k hk => hF k (List.mem_cons_of_mem _ hk)) p (List.nodup_cons.mp hnd).1
        rw [hrest]
      · have htail := filterMap_filter_page_unique F ks (List.nodup_cons.mp hnd).2
          (fun k hk => hF k (List.mem_cons_of_mem _ hk)) p hp' w hFp
        cases hF0 : F k0 with
        | none => exact htail
        | some v =>
            have hvp : v.page_num = k0 := hF k0 (List.mem_cons_self _ _) v hF0
            have hk0p : ¬ k0 = p := by
              intro e
              exact (List.nodup_cons.mp hnd).1 (e ▸ hp')
            rw [List.filter_cons, if_neg (by simp [hvp, hk0p])]
            exact htail

/-- C2: for every page number with at least one candidate, the cross-validated
output holds exactly one table of that page, and it is one of the inputs; every
output table is an input table (nothing invented or modified). -/
theorem cross_validation_one_winner_per_page (tables : List TableData) (p : Nat)
    (h : ∃ t ∈ tables, t.page_num = p) :
    (∃ w, (crossValidateTables tables).1.filter (fun t => decide (t.page_num = p)) = [w]
        ∧ w ∈ tables ∧ w.page_num = p)
    ∧ ∀ v ∈ (crossValidateTables tables).1, v ∈ tables := by
  have hout : (crossValidateTables tables).1 =
      (firstKeys TableData.page_num tables).filterMap
        (fun k => pageWinner (tables.filter (fun a => decide (a.page_num = k)))) := by
    show ((groupByKey TableData.page_num tables).filterMap fun pg => pageWinner pg.2) = _
    rw [groupByKey_eq_firstKeys, List.filterMap_map]
    have hfun : ((fun pg : Nat × List TableData => pageWinner pg.2) ∘
          fun k => (k, tables.filter (fun a => decide (a.page_num = k))))
        = fun k => pageWinner (tables.filter (fun a => decide (a.page_num = k))) := by
      funext k
      simp [Function.comp]
    rw [hfun]
  have hFpage : ∀ k, ∀ w,
      pageWinner (tables.filter (fun a => decide (a.page_num = k))) = some w →
        w.page_num = k := by
    intro k w hw
    exact of_decide_eq_true (List.mem_filter.mp (pageWinner_mem hw)).2
  have hp : p ∈ firstKeys TableData.page_num tables := (mem_firstKeys _ _ _).mpr h
  have hpfil : tables.filter (fun a => decide (a.page_num = p)) ≠ [] := by
    obtain ⟨t, ht, htp⟩ := h
    intro e
    have : t ∈ tables.filter (fun a => decide (a.page_num = p)) :=
      List.mem_filter.mpr ⟨ht, by simp [htp]⟩
    rw [e] at this
    simp at this
  obtain ⟨w, hw⟩ := pageWinner_isSome hpfil
  constructor
  · refine ⟨w, ?_, List.mem_of_mem_filter (pageWinner_mem hw), hFpage p w hw⟩
    rw [hout]
    exact filterMap_filter_page_unique _ _ (nodup_firstKeys _ _) (fun k _ => hFpage k) p hp w hw
  · intro v hv
    rw [hout] at hv
    obtain ⟨k, hk, hvk⟩ := List.mem_filterMap.mp hv
    exact List.mem_of_mem_filter (pageWinner_mem hvk)

theorem cross_validation_one_winner_per_page_witness :
    (∃ w, (crossValidateTables
            [⟨[["x"], ["y"]], 1, "pdfplumber", 80⟩,
             ⟨[["a"], ["b"]], 1, "camelot_stream", 70⟩]).1.filter
          (fun t => decide (t.page_num = 1)) = [w]
        ∧ w ∈ [⟨[["x"], ["y"]], 1, "pdfplumber", 80⟩,
               ⟨[["a"], ["b"]], 1, "camelot_stream", 70⟩]
        ∧ w.page_num = 1)
    ∧ ∀ v ∈ (crossValidateTables
            [⟨[["x"], ["y"]], 1, "pdfplumber", 80⟩,
             ⟨[["a"], ["b"]], 1, "camelot_stream", 70⟩]).1,
        v ∈ [⟨[["x"], ["y"]], 1, "pdfplumber", 80⟩,
             ⟨[["a"], ["b"]], 1, "camelot_stream", 70⟩] :=
  cross_validation_one_winner_per_page _ 1 (by decide)

/-- C6: a page with exactly one candidate keeps that candidate unchanged
(its confidence included, whatever its value), and no audit line mentions
that page. -/
theorem single_candidate_shortcut (tables : List TableData) (p : Nat) (t : TableData)
    (h : tables.filter (fun u => decide (u.page_num = p)) = [t]) :
    (crossValidateTables tables).1.filter (fun u => decide (u.page_num = p)) = [t]
    ∧ ∀ r ∈ (crossValidateTables tables).2, r.page_num ≠ p := by
  have hout : (crossValidateTables tables).1 =
      (firstKeys TableData.page_num tables).filterMap
        (fun k => pageWinner (tables.filter (fun a => decide (a.page_num = k)))) := by
    show ((groupByKey TableData.page_num tables).filterMap fun pg => pageWinner pg.2) = _
    rw [groupByKey_eq_firstKeys, List.filterMap_map]
    have hfun : ((fun pg : Nat × List TableData => pageWinner pg.2) ∘
          fun k => (k, tables.filter (fun a => decide (a.page_num = k))))
        = fun k => pageWinner (tables.filter (fun a => decide (a.page_num = k))) := by
      funext k
      simp [Function.comp]
    rw [hfun]
  have hFpage : ∀ k, ∀ w,
      pageWinner (tables.filter (fun a => decide (a.page_num = k))) = some w →
        w.page_num = k := by
    intro k w hw
    exact of_decide_eq_true (List.mem_filter.mp (pageWinner_mem hw)).2
  have htmem : t ∈ tables := by
    have : t ∈ tables.filter (fun u => decide (u.page_num = p)) := by
      rw [h]
      exact List.mem_cons_self _ _
    exact List.mem_of_mem_filter this
  have htp : t.page_num = p := by
    have : t ∈ tables.filter (fun u => decide (u.page_num = p)) := by
      rw [h]
      exact List.mem_cons_self _ _
    exact of_decide_eq_true (List.mem_filter.mp this).2
  have hp : p ∈ firstKeys TableData.page_num tables :=
    (mem_firstKeys _ _ _).mpr ⟨t, htmem, htp⟩
  have hFp : pageWinner (tables.filter (fun a => decide (a.page_num = p))) = some t := by
    rw [h]
    rfl
  constructor
  · rw [hout]
    exact filterMap_filter_page_unique _ _ (nodup_firstKeys _ _) (fun k _ => hFpage k) p hp t hFp
  · have hrep : (crossValidateTables tables).2 =
        (firstKeys TableData.page_num tables).filterMap
          (fun k =>
            if (tables.filter (fun a => decide (a.page_num = k))).length = 1 then none
            else (pageWinner (tables.filter (fun a => decide (a.page_num = k)))).map
              (reportEntry k)) := by
      show ((groupByKey TableData.page_num tables).filterMap fun pg =>
          if pg.2.length = 1 then none
          else (pageWinner pg.2).map (reportEntry pg.1)) = _
      rw [groupByKey_eq_firstKeys, List.filterMap_map]
      have hfun : ((fun pg : Nat × List TableData =>
            if pg.2.length = 1 then none
            else (pageWinner pg.2).map (reportEntry pg.1)) ∘
            fun k => (k, tables.filter (fun a => decide (a.page_num = k))))
          = fun k =>
              if (tables.filter (fun a => decide (a.page_num = k))).length = 1 then none
              else (pageWinner (tables.filter (fun a => decide (a.page_num = k)))).map
                (reportEntry k) := by
        funext k
        simp [Function.comp]
      rw [hfun]
    intro r hr
    rw [hrep] at hr
    obtain ⟨k, hk, hG⟩ := List.mem_filterMap.mp hr
    intro hrp
    by_cases hlen : (tables.filter (fun a => decide (a.page_num = k))).length = 1
    · rw [if_pos hlen] at hG
      cases hG
    · rw [if_neg hlen] at hG
      cases hpw : pageWinner (tables.filter (fun a => decide (a.page_num = k))) with
      | none => rw [hpw] at hG; cases hG
      | some w =>
          rw [hpw] at hG
          have hrk : r.page_num = k := by
            cases hG
            rfl
          have hkp : k = p := hrk.symm.trans hrp
          rw [hkp, h] at hlen
          simp at hlen

theorem single_candidate_shortcut_witness :
    (crossValidateTables
        [⟨[["a"], ["b"]], 1, "pdfplumber", 0⟩,
         ⟨[["c"], ["d"]], 2, "camelot_stream", 50⟩]).1.filter
      (fun u => decide (u.page_num = 1)) = [⟨[["a"], ["b"]], 1, "pdfplumber", 0⟩]
    ∧ ∀ r ∈ (crossValidateTables
        [⟨[["a"], ["b"]], 1, "pdfplumber", 0⟩,
         ⟨[["c"], ["d"]], 2, "camelot_stream", 50⟩]).2, r.page_num ≠ 1 :=
  single_candidate_shortcut _ 1 _ (by decide)

theorem camelotCandidates_rows {s : String} {ts : List CamelotTable} {t : TableData}
    (h : t ∈ camelotCandidates s ts) : 2 ≤ t.data.length := by
  obtain ⟨c, hc, rfl⟩ := List.mem_map.mp h
  have h2 := (List.mem_filter.mp hc).2
  simp only [decide_eq_true_eq] at h2
  simpa using h2

theorem extractWithPdfplumberFrom_rows (pages : List (List (List (List String)))) :
    ∀ (n : Nat) (t : TableData), t ∈ extractWithPdfplumberFrom n pages →
      2 ≤ t.data.length := by
  induction pages with
  | nil =>
      intro n t h
      simp [extractWithPdfplumberFrom] at h
  | cons pg rest ih =>
      intro n t h
      rw [extractWithPdfplumberFrom] at h
      rcases List.mem_append.mp h with h1 | h1
      · obtain ⟨raw, hraw, rfl⟩ := List.mem_map.mp h1
        have h2 := (List.mem_filter.mp hraw).2
        simp only [Bool.and_eq_true, decide_eq_true_eq] at h2
        simpa using h2.2
      · exact ih (n + 1) t h1

/-- C5: every candidate table the cross-validator can receive has at least two
rows - the pdfplumber loop and both camelot passes each drop tables with fewer
than two rows before appending them. -/
theorem candidates_have_at_least_two_rows (pages : List (List (List (List String))))
    (stream lattice : Except String (List CamelotTable)) (t : TableData)
    (h : t ∈ pipelineCandidates pages stream lattice) : 2 ≤ t.data.length := by
  rcases List.mem_append.mp h with h1 | h1
  · exact extractWithPdfplumberFrom_rows pages 1 t h1
  · unfold extractTablesWithCamelot at h1
    cases stream with
    | error e => simp at h1
    | ok sts =>
        cases lattice with
        | error e => exact camelotCandidates_rows h1
        | ok lts =>
            rcases List.mem_append.mp h1 with h2 | h2
            · exact camelotCandidates_rows h2
            · exact camelotCandidates_rows h2

theorem candidates_have_at_least_two_rows_witness :
    (⟨[["a"], ["b"]], 3, "camelot_stream", 90⟩ : TableData) ∈
        pipelineCandidates ([] : List (List (List (List String))))
          (Except.ok [⟨[["a"], ["b"]], 3, 90⟩] : Except String (List CamelotTable))
          (Except.error "no ruled lines" : Except String (List CamelotTable))
    ∧ 2 ≤ (⟨[["a"], ["b"]], 3, "camelot_stream", (90 : ℚ)⟩ : TableData).data.length :=
  ⟨by decide,
   candidates_have_at_least_two_rows ([] : List (List (List (List String))))
     (Except.ok [⟨[["a"], ["b"]], 3, 90⟩]) (Except.error "no ruled lines")
     ⟨[["a"], ["b"]], 3, "camelot_stream", 90⟩ (by decide)⟩

/-- C7 counterexample: the lattice pass throws (inner bare `except: pass`),
the stream pass succeeded with one usable table - camelot returns the stream
candidate, the pipeline continues, but the comparison report stays EMPTY:
no diagnostic line records the lattice failure, contrary to the claim. -/
theorem lattice_failure_silent_no_report :
    extractTablesWithCamelot (.ok [⟨[["a"], ["b"]], 1, 90⟩]) (.error "lattice failed")
      = ([⟨[["a"], ["b"]], 1, "camelot_stream", 90⟩], []) := by decide

/-- C7 as the code has it: a lattice-mode failure is swallowed silently
(zero lattice candidates, NO diagnostic line); a stream-mode failure aborts
the whole camelot stage (the lattice pass is skipped too) and records the one
diagnostic line "Camelot 오류: ..."; in both cases the pipeline continues with
the remaining backends' candidates. -/
theorem camelot_failure_semantics (pages : List (List (List (List String))))
    (e : String) (sts : List CamelotTable) :
    extractTablesWithCamelot (.ok sts) (.error e)
        = (camelotCandidates "camelot_stream" sts, [])
    ∧ extractTablesWithCamelot (.error e) (.ok sts) = ([], ["Camelot 오류: " ++ e])
    ∧ pipelineCandidates pages (.error e) (.ok sts) = extractWithPdfplumber pages := by
  refine ⟨rfl, rfl, ?_⟩
  simp [pipelineCandidates, extractTablesWithCamelot]

theorem roundHalfEven_nonneg {q : ℚ} (h : 0 ≤ q) : 0 ≤ roundHalfEven q := by
  simp only [roundHalfEven]
  have h0 : 0 ≤ ⌊q⌋ := Int.floor_nonneg.mpr h
  split_ifs <;> omega

theorem roundHalfEven_le {q : ℚ} {m : ℤ} (h : q ≤ (m : ℚ)) : roundHalfEven q ≤ m := by
  simp only [roundHalfEven]
  have hfl : (⌊q⌋ : ℚ) ≤ q := Int.floor_le q
  have hle : ⌊q⌋ ≤ m := Int.cast_le.mp (hfl.trans h)
  split_ifs with h1 h2 h3
  · exact hle
  · have hgt : (⌊q⌋ : ℚ) + 1 / 2 < (m : ℚ) + 1 / 2 := by linarith
    have : (⌊q⌋ : ℚ) < (m : ℚ) := by linarith
    have := Int.cast_lt.mp this
    omega
  · exact hle
  · have hhalf : 1 / 2 ≤ q - (⌊q⌋ : ℚ) := le_of_not_lt h1
    have : (⌊q⌋ : ℚ) < (m : ℚ) := by linarith
    have := Int.cast_lt.mp this
    omega

theorem pyRound2_bounds {q : ℚ} (h0 : 0 ≤ q) (h1 : q ≤ 100) :
    0 ≤ pyRound2 q ∧ pyRound2 q ≤ 100 := by
  have hr0 : 0 ≤ roundHalfEven (q * 100) := roundHalfEven_nonneg (by linarith)
  have hr1 : roundHalfEven (q * 100) ≤ (10000 : ℤ) := by
    apply roundHalfEven_le
    push_cast
    linarith
  unfold pyRound2
  constructor
  · apply div_nonneg _ (by norm_num)
    exact_mod_cast hr0
  · rw [div_le_iff₀ (by norm_num : (0 : ℚ) < 100)]
    have : ((roundHalfEven (q * 100) : ℤ) : ℚ) ≤ ((10000 : ℤ) : ℚ) := by
      exact_mod_cast hr1
    push_cast at this ⊢
    linarith

theorem pyRound2_weighted_bounds (f c : ℚ) (hf0 : 0 ≤ f) (hf1 : f ≤ 1)
    (hc0 : 0 ≤ c) (hc1 : c ≤ 1) :
    0 ≤ pyRound2 ((f * 0.6 + c * 0.4) * 100) ∧ pyRound2 ((f * 0.6 + c * 0.4) * 100) ≤ 100 := by
  have e6 : (0.6 : ℚ) = 6 / 10 := by norm_num
  have e4 : (0.4 : ℚ) = 4 / 10 := by norm_num
  have h0 : 0 ≤ (f * 0.6 + c * 0.4) * 100 := by
    rw [e6, e4]
    nlinarith
  have h1 : (f * 0.6 + c * 0.4) * 100 ≤ 100 := by
    rw [e6, e4]
    nlinarith
  exact pyRound2_bounds h0 h1

theorem natDiv_nonneg_le_one {a b : Nat} (hab : a ≤ b) (hb : 0 < b) :
    0 ≤ ((a : ℚ) / (b : ℚ)) ∧ (a : ℚ) / (b : ℚ) ≤ 1 := by
  have hbq : (0 : ℚ) < (b : ℚ) := by exact_mod_cast hb
  constructor
  · exact div_nonneg (by exact_mod_cast Nat.zero_le a) (le_of_lt hbq)
  · rw [div_le_one hbq]
    exact_mod_cast hab

/-- C8: the confidence scorer is total and lands in [0, 100] for every rows
value; the zero-total-cell case returns 0 without dividing by zero, and
otherwise fill rate and consistency rate lie in [0, 1], so the rounded
weighted score lies in [0, 100]. -/
theorem confidence_score_in_range (rows : List (List String)) :
    (0 ≤ calculateTableConfidence rows ∧ calculateTableConfidence rows ≤ 100)
    ∧ ((rows.map List.length).sum = 0 → calculateTableConfidence rows = 0) := by
  simp only [calculateTableConfidence]
  by_cases hE : rows.isEmpty
  · simp [hE]
  · simp only [hE, Bool.false_eq_true, if_false]
    by_cases hT : (rows.map List.length).sum = 0
    · simp [hT]
    · simp only [hT, if_false]
      refine ⟨?_, fun hcon => hcon.elim⟩
      have hTpos : 0 < (rows.map List.length).sum := Nat.pos_of_ne_zero hT
      have hne : (rows.map (fun row => row.countP cellNonEmpty)).sum
          ≤ (rows.map List.length).sum :=
        List.sum_le_sum (fun r _ => List.countP_le_length _)
      have hCne : (rows.map List.length).isEmpty = false := by
        cases rows with
        | nil => simp at hE
        | cons r rs => simp
      rw [hCne]
      simp only [Bool.false_eq_true, if_false]
      have hLpos : 0 < (rows.map List.length).length := by
        cases rows with
        | nil => simp at hE
        | cons r rs => simp
      obtain ⟨hf0, hf1⟩ := natDiv_nonneg_le_one hne hTpos
      obtain ⟨hc0, hc1⟩ := natDiv_nonneg_le_one
        (List.count_le_length (mostCommonCols (rows.map List.length)) (rows.map List.length))
        hLpos
      exact pyRound2_weighted_bounds _ _ hf0 hf1 hc0 hc1

theorem confidence_score_in_range_witness :
    0 ≤ calculateTableConfidence [[]] ∧ calculateTableConfidence [[]] = 0 :=
  ⟨(confidence_score_in_range [[]]).1.1, (confidence_score_in_range [[]]).2 rfl⟩

theorem confidence_example_value :
    calculateTableConfidence [["a", "b"], ["", "d"], ["e", "f", "g"]] = 78.1 := by
  have e2 : (([["a", "b"], ["", "d"], ["e", "f", "g"]] : List (List String)).map
      List.length).sum = 7 := by decide
  have e3 : (([["a", "b"], ["", "d"], ["e", "f", "g"]] : List (List String)).map
      (fun row => row.countP cellNonEmpty)).sum = 6 := by decide
  have e4 : mostCommonCols (([["a", "b"], ["", "d"], ["e", "f", "g"]] :
      List (List String)).map List.length) = 2 := by decide
  have e5 : (([["a", "b"], ["", "d"], ["e", "f", "g"]] : List (List String)).map
      List.length).count 2 = 2 := by decide
  have e6 : (([["a", "b"], ["", "d"], ["e", "f", "g"]] : List (List String)).map
      List.length).length = 3 := by decide
  have hf : ⌊(((6 : ℚ) / 7 * 0.6 + (2 : ℚ) / 3 * 0.4) * 100 * 100)⌋ = 7809 := by
    rw [Int.floor_eq_iff]
    norm_num
  simp only [calculateTableConfidence, e2, e3, e4, e5, e6, List.isEmpty_cons,
    Bool.false_eq_true, if_false, pyRound2, roundHalfEven]
  norm_num [hf]

/-- C3 counterexample: the claim asserts the score of the rows
[["a","b"],["","d"],["e","f","g"]] is 52.38; the scorer does not return
52.38 on that input (it returns 78.1: the rows have 7 cells of which 6 are
non-empty, not 5, and round((0.6*6/7 + 0.4*2/3)*100, 2) = 78.1). -/
theorem confidence_example_not_spec_value :
    calculateTableConfidence [["a", "b"], ["", "d"], ["e", "f", "g"]] ≠ 52.38 := by
  rw [confidence_example_value]
  norm_num

/-- C3 amended: on rows [["a","b"],["","d"],["e","f","g"]] the scorer counts
7 cells of which 6 are non-empty (only "" is empty), so fill_rate = 6/7;
column counts [2,2,3] have mode 2, so consistency_rate = 2/3; the score is
round((0.6*6/7 + 0.4*2/3)*100, 2) = 78.1. -/
theorem confidence_example_amended :
    calculateTableConfidence [["a", "b"], ["", "d"], ["e", "f", "g"]] = 78.1 :=
  confidence_example_value

/-- C4 counterexample: the list patterns of the classifier are anchored at the
start of the text (`re.match`), so a dash item preceded by spaces matches no
list pattern; neither "   - item" nor "     - item" classifies as a list_item
at any depth. -/
theorem classify_indented_dash_not_list_item :
    addTextBlock "   - item".data ≠ some ("list_item", 1)
    ∧ addTextBlock "     - item".data ≠ some ("list_item", 2) := by decide

/-- C4 amended: "1. Introduction" classifies as a heading of level 2; both
"   - item" (3 leading spaces) and "     - item" (5 leading spaces) classify
as paragraphs of level 0, because every list pattern is anchored at the start
of the string and leading whitespace therefore prevents list classification
(the more-than-four-leading-spaces depth bonus only ever applies to the list
depth, which such texts never obtain). -/
theorem classification_boundary_amended :
    addTextBlock "1. Introduction".data = some ("heading", 2)
    ∧ addTextBlock "   - item".data = some ("paragraph", 0)
    ∧ addTextBlock "     - item".data = some ("paragraph", 0) := by decide

theorem sum_dictAppend (k : Nat) (b : TextBlock) (d : List (Nat × List TextBlock)) :
    ((dictAppend k b d).map (fun pg => pg.2.length)).sum
      = (d.map (fun pg => pg.2.length)).sum + 1 := by
  induction d with
  | nil => simp [dictAppend]
  | cons pr d ih =>
      obtain ⟨j, g⟩ := pr
      simp only [dictAppend]
      by_cases hj : j = k
      · rw [if_pos hj]
        simp only [List.map_cons, List.sum_cons, List.length_append, List.length_cons,
          List.length_nil]
        omega
      · rw [if_neg hj]
        simp only [List.map_cons, List.sum_cons, ih]
        omega

theorem sum_jsonPagesStep (d : List (Nat × List TextBlock)) (b : TextBlock) :
    ((jsonPagesStep d b).map (fun pg => pg.2.length)).sum
      = (d.map (fun pg => pg.2.length)).sum
        + (if (b.block_type == "table") = true then 0 else 1) := by
  unfold jsonPagesStep
  have hd1 : (((if d.any (fun pg => pg.1 == b.page_num) then d
        else d ++ [(b.page_num, [])]).map (fun pg => pg.2.length)).sum)
      = (d.map (fun pg => pg.2.length)).sum := by
    split_ifs with hmem
    · rfl
    · simp
  by_cases ht : (b.block_type == "table") = true
  · rw [if_pos ht, if_pos ht, hd1]
    omega
  · rw [if_neg ht, if_neg ht, sum_dictAppend, hd1]

theorem sum_jsonPages_foldl (blocks : List TextBlock) :
    ∀ d : List (Nat × List TextBlock),
      (((blocks.foldl jsonPagesStep d).map (fun pg => pg.2.length)).sum)
        = (d.map (fun pg => pg.2.length)).sum
          + blocks.countP (fun b => !(b.block_type == "table")) := by
  induction blocks with
  | nil =>
      intro d
      simp
  | cons b bs ih =>
      intro d
      rw [List.foldl_cons, ih, sum_jsonPagesStep, List.countP_cons]
      rcases Bool.eq_false_or_eq_true (b.block_type == "table") with hb | hb <;>
        · simp only [hb, Bool.not_true, Bool.not_false, Bool.false_eq_true,
            eq_self_iff_true, if_true, if_false]
          omega

theorem countP_lt_length_of_mem {α : Type} {p : α → Bool} {l : List α} {a : α}
    (ha : a ∈ l) (hpa : p a = false) : l.countP p < l.length := by
  induction l with
  | nil => simp at ha
  | cons x xs ih =>
      rw [List.countP_cons, List.length_cons]
      rcases List.mem_cons.mp ha with rfl | ha'
      · rw [hpa]
        simp only [Bool.false_eq_true, if_false, Nat.add_zero]
        exact Nat.lt_succ_of_le (List.countP_le_length _)
      · by_cases hx : p x = true
        · simp only [hx, if_true]
          exact Nat.add_lt_add_right (ih ha') 1
        · simp only [hx, if_false]
          exact Nat.lt_succ_of_lt (ih ha')

/-- C9: in the JSON export, total_blocks counts every text block, table
markers included, while the per-page blocks arrays exclude table-marker
blocks; so with at least one table marker present, total_blocks strictly
exceeds the sum of the per-page blocks lengths. -/
theorem json_total_blocks_exceeds_page_blocks (blocks : List TextBlock)
    (tables : List TableData) (h : ∃ b ∈ blocks, b.block_type = "table") :
    ((saveJson blocks tables).content.map (fun pg => pg.blocks.length)).sum
      < (saveJson blocks tables).total_blocks := by
  obtain ⟨b, hb, hbt⟩ := h
  have hsum : ((saveJson blocks tables).content.map (fun pg => pg.blocks.length)).sum
      = blocks.countP (fun x => !(x.block_type == "table")) := by
    show (((jsonPages blocks).map (fun pg =>
        ({ page_number := pg.1, blocks := pg.2,
           tables := tables.filter (fun t => t.page_num == pg.1) } : JsonPage))).map
        (fun pg => pg.blocks.length)).sum = _
    rw [List.map_map]
    have hcomp : ((fun pg : JsonPage => pg.blocks.length) ∘ fun pg : Nat × List TextBlock =>
        ({ page_number := pg.1, blocks := pg.2,
           tables := tables.filter (fun t => t.page_num == pg.1) } : JsonPage))
        = fun pg : Nat × List TextBlock => pg.2.length := by
      funext pg
      rfl
    rw [hcomp]
    have := sum_jsonPages_foldl blocks []
    simpa [jsonPages] using this
  have htot : (saveJson blocks tables).total_blocks = blocks.length := rfl
  rw [hsum, htot]
  exact countP_lt_length_of_mem hb (by simp [hbt])

theorem json_total_blocks_exceeds_page_blocks_witness :
    ((saveJson [⟨"[TABLE_1_1]", "table", 0, 1⟩, ⟨"hello", "paragraph", 0, 1⟩]
        []).content.map (fun pg => pg.blocks.length)).sum
      < (saveJson [⟨"[TABLE_1_1]", "table", 0, 1⟩, ⟨"hello", "paragraph", 0, 1⟩]
          []).total_blocks :=
  json_total_blocks_exceeds_page_blocks _ [] ⟨⟨"[TABLE_1_1]", "table", 0, 1⟩, by decide⟩

/-- C10: a table marker resolves to the first validated table whose page
number equals the marker's page, the marker's ordinal is ignored for
resolution, and two markers with the same page render the same table in both
the markdown and the HTML output - only the displayed "Table i" label
differs (the head piece); the remaining pieces are identical. -/
theorem marker_resolution_ignores_ordinal (tables : List TableData)
    (text1 text2 : List Char) (p i j : Nat)
    (h1 : parseTableMarker text1 = some (p, i))
    (h2 : parseTableMarker text2 = some (p, j)) :
    ((renderTableBlockMd tables text1).head? =
        (tables.find? (fun t => t.page_num == p)).map (fun _ => MdPiece.tableHeader i))
    ∧ ((renderTableBlockMd tables text2).head? =
        (tables.find? (fun t => t.page_num == p)).map (fun _ => MdPiece.tableHeader j))
    ∧ (renderTableBlockMd tables text1).tail = (renderTableBlockMd tables text2).tail
    ∧ ((renderTableBlockHtml tables text1).head? =
        (tables.find? (fun t => t.page_num == p)).map (fun _ => HtmlPiece.tableHeading i))
    ∧ ((renderTableBlockHtml tables text2).head? =
        (tables.find? (fun t => t.page_num == p)).map (fun _ => HtmlPiece.tableHeading j))
    ∧ (renderTableBlockHtml tables text1).tail = (renderTableBlockHtml tables text2).tail := by
  unfold renderTableBlockMd renderTableBlockHtml
  rw [h1, h2]
  cases hfind : tables.find? (fun t => t.page_num == p) with
  | none => simp [hfind]
  | some t => simp [hfind]

theorem marker_resolution_ignores_ordinal_witness :
    ((renderTableBlockMd [⟨[["h"], ["r"]], 2, "pdfplumber", 50⟩] "[TABLE_2_1]".data).head? =
        (([⟨[["h"], ["r"]], 2, "pdfplumber", 50⟩] : List TableData).find?
            (fun t => t.page_num == 2)).map (fun _ => MdPiece.tableHeader 1))
    ∧ ((renderTableBlockMd [⟨[["h"], ["r"]], 2, "pdfplumber", 50⟩] "[TABLE_2_7]".data).head? =
        (([⟨[["h"], ["r"]], 2, "pdfplumber", 50⟩] : List TableData).find?
            (fun t => t.page_num == 2)).map (fun _ => MdPiece.tableHeader 7))
    ∧ (renderTableBlockMd [⟨[["h"], ["r"]], 2, "pdfplumber", 50⟩] "[TABLE_2_1]".data).tail
        = (renderTableBlockMd [⟨[["h"], ["r"]], 2, "pdfplumber", 50⟩] "[TABLE_2_7]".data).tail
    ∧ ((renderTableBlockHtml [⟨[["h"], ["r"]], 2, "pdfplumber", 50⟩] "[TABLE_2_1]".data).head? =
        (([⟨[["h"], ["r"]], 2, "pdfplumber", 50⟩] : List TableData).find?
            (fun t => t.page_num == 2)).map (fun _ => HtmlPiece.tableHeading 1))
    ∧ ((renderTableBlockHtml [⟨[["h"], ["r"]], 2, "pdfplumber", 50⟩] "[TABLE_2_7]".data).head? =
        (([⟨[["h"], ["r"]], 2, "pdfplumber", 50⟩] : List TableData).find?
            (fun t => t.page_num == 2)).map (fun _ => HtmlPiece.tableHeading 7))
    ∧ (renderTableBlockHtml [⟨[["h"], ["r"]], 2, "pdfplumber", 50⟩] "[TABLE_2_1]".data).tail
        = (renderTableBlockHtml [⟨[["h"], ["r"]], 2, "pdfplumber", 50⟩] "[TABLE_2_7]".data).tail :=
  marker_resolution_ignores_ordinal [⟨[["h"], ["r"]], 2, "pdfplumber", 50⟩]
    "[TABLE_2_1]".data "[TABLE_2_7]".data 2 1 7 (by decide) (by decide)
